import Mathlib

/-!
Verification of the datalad handle-installation and annex-bridge subsystem.

The development shallowly embeds the Python sources:
  * datalad/support/annexrepo.py  (AnnexRepo._check_path, get_file_key,
    file_has_content)
  * datalad/interface/POC_install.py  (POCInstallHandle.__call__: ancestor
    resolution, submodule-add bookkeeping, error re-classification,
    commit propagation, annex re-initialization)

Python strings are modelled as lists of characters, so that the exact
slicing, splitting and joining done by the sources - and by the
posixpath primitives they call (normpath, join, relpath, isabs,
commonprefix) - can be reproduced and reasoned about directly.
-/

namespace Datalad

/-- Python strings are modelled as lists of characters. -/
abbrev PyStr := List Char

/-- Embed a Lean string literal as a modelled Python string. -/
def pys (s : String) : PyStr := s.data

/-- The single-quote character. -/
def qc : Char := Char.ofNat 39

/-- The path separator character. -/
def slashc : Char := Char.ofNat 47

/-- The dot character. -/
def dotc : Char := Char.ofNat 46

/-- Auxiliary for splitting on a character: returns the chunk before the
first separator and the list of remaining chunks. -/
def splitOnCharAux (c : Char) : PyStr → PyStr × List PyStr
  | [] => ([], [])
  | x :: xs =>
    let r := splitOnCharAux c xs
    if x = c then ([], r.1 :: r.2) else (x :: r.1, r.2)

/-- Python s.split(c) for a single separator character: always returns at
least one (possibly empty) chunk. -/
def splitOnChar (c : Char) (s : PyStr) : List PyStr :=
  (splitOnCharAux c s).1 :: (splitOnCharAux c s).2

/-- Python c.join(segs) for a single-character separator (joinSegs models
the '/'.join used inside posixpath.normpath). -/
def joinSegs (sep : Char) : List PyStr → PyStr
  | [] => []
  | [s] => s
  | s :: t :: r => s ++ sep :: joinSegs sep (t :: r)

/-- Whitespace test used by Python str.split() / str.strip(). -/
def pyIsWs (c : Char) : Bool :=
  c == Char.ofNat 32 || c == Char.ofNat 9 || c == Char.ofNat 10 || c == Char.ofNat 13

/-- Accumulating tokenizer behind pySplitWs. -/
def wsTokensAux : PyStr → PyStr → List PyStr
  | cur, [] => if cur = [] then [] else [cur.reverse]
  | cur, c :: cs =>
    if pyIsWs c then
      (if cur = [] then wsTokensAux [] cs else cur.reverse :: wsTokensAux [] cs)
    else wsTokensAux (c :: cur) cs

/-- Python s.split() with no argument: split on whitespace runs, dropping
empty tokens. -/
def pySplitWs (s : PyStr) : List PyStr := wsTokensAux [] s

/-- Python s.strip(): remove leading and trailing whitespace. -/
def pyStripWs (s : PyStr) : PyStr :=
  ((s.dropWhile pyIsWs).reverse.dropWhile pyIsWs).reverse

/-- Python s.strip(c): remove leading and trailing occurrences of one
character. -/
def pyStripChar (c : Char) (s : PyStr) : PyStr :=
  ((s.dropWhile (· == c)).reverse.dropWhile (· == c)).reverse

/-- Python s.startswith(t). -/
def pyStartsWith (s t : PyStr) : Bool := s.take t.length == t

/-- Python s.endswith(t). -/
def pyEndsWith (s t : PyStr) : Bool := s.drop (s.length - t.length) == t

/-- os.path.commonprefix on a pair: the character-wise (element-wise)
longest common prefix of the two sequences. -/
def commonPref {α : Type} [DecidableEq α] : List α → List α → List α
  | x :: xs, y :: ys => if x = y then x :: commonPref xs ys else []
  | _, _ => []

/-- posixpath.isabs. -/
def isabs (p : PyStr) : Bool := p.take 1 == [slashc]

/-- posixpath.join of two components. -/
def opj (a b : PyStr) : PyStr :=
  if b.take 1 = [slashc] then b
  else if a = [] ∨ a.getLast? = some slashc then a ++ b
  else a ++ slashc :: b

/-- One step of posixpath.normpath component processing (the loop body
over the split components). -/
def normSegStep (islashes : Nat) (acc : List PyStr) (comp : PyStr) : List PyStr :=
  if comp = [] ∨ comp = [dotc] then acc
  else if comp ≠ [dotc, dotc] ∨ (islashes = 0 ∧ acc = []) ∨ acc.getLast? = some [dotc, dotc] then
    acc ++ [comp]
  else acc.dropLast

/-- posixpath.normpath. -/
def normpath (p : PyStr) : PyStr :=
  if p = [] then [dotc]
  else
    let islashes : Nat :=
      if p.take 1 = [slashc] then
        if p.take 2 = [slashc, slashc] ∧ p.take 3 ≠ [slashc, slashc, slashc] then 2 else 1
      else 0
    let segs := (splitOnChar slashc p).foldl (normSegStep islashes) []
    let body := List.replicate islashes slashc ++ joinSegs slashc segs
    if body = [] then [dotc] else body

/-- posixpath.abspath, parameterized by the current working directory. -/
def abspath (cwd p : PyStr) : PyStr :=
  if isabs p then normpath p else normpath (opj cwd p)

/-- posixpath.relpath path start, parameterized by the current working
directory (used by abspath on relative arguments). -/
def relpath (cwd p start : PyStr) : PyStr :=
  let startList := (splitOnChar slashc (abspath cwd start)).filter (fun x => x != [])
  let pathList := (splitOnChar slashc (abspath cwd p)).filter (fun x => x != [])
  let i := (commonPref startList pathList).length
  let relList := List.replicate (startList.length - i) [dotc, dotc] ++ pathList.drop i
  match relList with
  | [] => [dotc]
  | x :: xs => xs.foldl opj x

/-- Errors surfaced by the AnnexRepo bridge.  pathOutsideRepo is the
FileNotInAnnexError raised with message "Path outside repository: ..." by
_check_path; ioError is the IOError propagating from the open() probe in
get_file_key; indexError models output[0].split()[0] applied to an empty
token list. -/
inductive AnnexErr
  | pathOutsideRepo
  | ioError
  | fileInGit
  | fileNotInAnnex
  | indexError
deriving DecidableEq

instance {α β : Type} [DecidableEq α] [DecidableEq β] : DecidableEq (Except α β) := fun a b =>
  match a, b with
  | .ok x, .ok y => if h : x = y then .isTrue (by simp [h]) else .isFalse (by simp [h])
  | .error x, .error y => if h : x = y then .isTrue (by simp [h]) else .isFalse (by simp [h])
  | .ok _, .error _ => .isFalse (by simp)
  | .error _, .ok _ => .isFalse (by simp)

/-- AnnexRepo._check_path (annexrepo.py lines 316-345): normalize the
argument; an absolute path raises "Path outside repository" unless the
character-wise commonprefix with the repo root equals the root, and is
otherwise rebased with relpath; a relative path is rebuilt against the
caller's cwd when the cwd lies inside the root (same commonprefix test),
and passed through unchanged otherwise. -/
def check_path (root cwd p : PyStr) : Except AnnexErr PyStr :=
  let q := normpath p
  if isabs q then
    if commonPref q root ≠ root then Except.error AnnexErr.pathOutsideRepo
    else Except.ok (relpath cwd q root)
  else if commonPref cwd root = root then Except.ok (relpath cwd (opj cwd q) root)
  else Except.ok q

/-- AnnexRepo.get_file_key (annexrepo.py lines 241-288).  The backend
lookupkey call is modelled by its outcome: some stdout on success, none
when the Runner raises the exit-code-1 RuntimeError.  fsOk states whether
open(join(root, checked-path)) succeeds; indexed is the set of
git-indexed files reported by get_indexed_files(). -/
def get_file_key (root cwd : PyStr) (lookup : Option PyStr) (fsOk : Bool)
    (indexed : List PyStr) (p : PyStr) : Except AnnexErr PyStr :=
  match check_path root cwd p with
  | Except.error e => Except.error e
  | Except.ok q =>
    match lookup with
    | some out =>
      match pySplitWs out with
      | [] => Except.error AnnexErr.indexError
      | k :: _ => Except.ok k
    | none =>
      if !fsOk then Except.error AnnexErr.ioError
      else if q ∈ indexed then Except.error AnnexErr.fileInGit
      else Except.error AnnexErr.fileNotInAnnex

/-- Python status not in [0, None] for the Runner return value. -/
def statusBad : Option Int → Bool
  | none => false
  | some s => s != 0

/-- AnnexRepo.file_has_content (annexrepo.py lines 290-314).  run is the
outcome of the git-annex-find call: none when it raises (the except
branch sets status = 1, making the guard short-circuit to False before
output is touched), some (status, stdout) otherwise. -/
def file_has_content (root cwd : PyStr) (run : Option (Option Int × PyStr))
    (p : PyStr) : Except AnnexErr Bool :=
  match check_path root cwd p with
  | Except.error e => Except.error e
  | Except.ok q =>
    match run with
    | none => Except.ok false
    | some (status, out) =>
      if statusBad status || out == [] then Except.ok false
      else
        match pySplitWs out with
        | [] => Except.error AnnexErr.indexError
        | t :: _ => Except.ok (t == q)

/-- Result of resolving a hierarchical name against the sub-repository
index: the selected anchor entry (none means the root handle), the
remainder of the name, and the anchor's absolute path. -/
structure Resolved where
  anchorName : Option PyStr
  remainder : PyStr
  anchorPath : PyStr
deriving DecidableEq

/-- Accumulator loop modelling candidates.sort(key=len) followed by
candidates[-1]: Python's sort is stable, so the last element of the
sorted list is the last-occurring entry of maximal length. -/
def pickAcc : Option PyStr → List PyStr → Option PyStr
  | acc, [] => acc
  | none, h :: t => pickAcc (some h) t
  | some a, h :: t => pickAcc (if a.length ≤ h.length then some h else some a) t

/-- The entry Python's sort-by-length-then-last selection picks, none on
an empty candidate list. -/
def pickLongest (l : List PyStr) : Option PyStr := pickAcc none l

/-- POC_install.py lines 117-128 (reinstall of a known, uninitialized
handle): candidates are the index entries h with src_as_name.startswith(h)
and h != src_as_name; the longest wins; the remainder is
src_as_name[len(anchor):] (note: no separator stripped) and the anchor
path is join(master.path, anchor).  Without candidates the root handle is
the anchor. -/
def resolve_reinstall (rootPath : PyStr) (handles : List PyStr) (nm : PyStr) : Resolved :=
  let candidates := handles.filter (fun h => pyStartsWith nm h && h != nm)
  match pickLongest candidates with
  | some a => ⟨some a, nm.drop a.length, opj rootPath a⟩
  | none => ⟨none, nm, rootPath⟩

/-- POC_install.py lines 156-171 (new addition with a hierarchical name):
super_handles are the index entries h with name.startswith(h) (no
strictness test); the longest wins; the remainder is
name[len(anchor) + 1:] (separator stripped) and the anchor path is
join(master.path, anchor). -/
def resolve_add (rootPath : PyStr) (handles : List PyStr) (nm : PyStr) : Resolved :=
  let supers := handles.filter (fun h => pyStartsWith nm h)
  match pickLongest supers with
  | some a => ⟨some a, nm.drop (a.length + 1), opj rootPath a⟩
  | none => ⟨none, nm, rootPath⟩

/-- A backend process invocation: argv list plus working directory. -/
inductive Action
  | run (cmd : List PyStr) (cwd : PyStr)
deriving DecidableEq

/-- The backend calls issued by the reinstall branch (POC_install.py
lines 134-148): git submodule update --init [--recursive] remainder with
cwd = the anchor path, then - when is_annex holds of the sub-repository
path join(anchor, remainder) - git annex init, also with
cwd = the anchor path (not the sub-repository path). -/
def reinstall_actions (rootPath : PyStr) (handles : List PyStr) (srcName : PyStr)
    (recursive : Bool) (isAnnexAt : PyStr → Bool) : List Action :=
  let r := resolve_reinstall rootPath handles srcName
  let updateCmd := [pys "git", pys "submodule", pys "update", pys "--init"]
      ++ (if recursive then [pys "--recursive"] else []) ++ [r.remainder]
  Action.run updateCmd r.anchorPath ::
    (if isAnnexAt (opj r.anchorPath r.remainder) then
      [Action.run [pys "git", pys "annex", pys "init"] r.anchorPath]
    else [])

/-- Fatal failures of the installation orchestrator. -/
inductive InstallErr
  | assertionViolation
deriving DecidableEq

/-- POC_install.py lines 217-234: the index keys appearing after the
submodule-add but not before; the assert demands exactly one and the
single survivor becomes the definitive name. -/
def check_added (pre post : List PyStr) : Except InstallErr PyStr :=
  let added := post.filter (fun sm => !(pre.contains sm))
  if added.length = 1 then Except.ok (added.headD []) else Except.error InstallErr.assertionViolation

/-- Outcome of the CommandError handler around git submodule add. -/
inductive AddErrClass
  | alreadyInstalled (quotedName : PyStr)
  | propagate (stderr : PyStr)
deriving DecidableEq

/-- The literal suffix matched against stripped stderr (29 characters,
leading single quote included). -/
def existsSuffix : PyStr := qc :: pys " already exists in the index"

/-- POC_install.py lines 207-215: strip the captured stderr; when it ends
with existsSuffix and starts with a single quote, re-classify as
"already installed" carrying m[0:-28] (the quoted name, closing quote
kept); otherwise re-raise the backend error unchanged. -/
def classify_submodule_add_error (stderr : PyStr) : AddErrClass :=
  let m := pyStripWs stderr
  if pyEndsWith m existsSuffix && pyStartsWith m [qc] then
    AddErrClass.alreadyInstalled (m.take (m.length - 28))
  else AddErrClass.propagate stderr

/-- One commit performed during commit propagation: the hierarchical name
of the repository committed (the empty name is the root handle), its
path, the path staged by git add beforehand (none for the first commit,
which stages nothing itself), and the commit message. -/
structure CommitEvent where
  hname : PyStr
  repoPath : PyStr
  staged : Option PyStr
  msg : PyStr
deriving DecidableEq

/-- POC_install.py lines 288-298: walk handles_to_commit, staging in each
repository what_to_commit[len(commonprefix([what_to_commit, h])):]
stripped of slashes, committing with the shared message, and updating
what_to_commit to the handle just visited. -/
def commit_loop (rootPath msgStr : PyStr) : PyStr → List PyStr → List CommitEvent
  | _, [] => []
  | what, h :: hs =>
    ⟨h, opj rootPath h, some (pyStripChar slashc (what.drop (commonPref what h).length)), msgStr⟩
      :: commit_loop rootPath msgStr h hs

/-- POC_install.py lines 266-298: the full commit sequence.  The target
handle (the deepest registered super handle, or the root when there is
none) is committed first with no explicit staging; then the remaining
super handles, deepest first, each followed by the root handle (the empty
name appended to the list), are staged and committed in order. -/
def commit_chain (rootPath : PyStr) (supers : List PyStr) (msgStr : PyStr) : List CommitEvent :=
  match supers.getLast? with
  | none => [⟨[], rootPath, none, msgStr⟩]
  | some tgt =>
    ⟨tgt, opj rootPath tgt, none, msgStr⟩ ::
      commit_loop rootPath msgStr tgt (supers.reverse.tail ++ [[]])

/-- Proper string-prefix order on modelled Python strings (a is a strict
textual prefix of b). -/
def properPreP (a b : PyStr) : Prop := b.take a.length = a ∧ a ≠ b

instance : DecidableRel properPreP := fun a b => by
  unfold properPreP; infer_instance

/-- Segment-aligned strict ancestor in the sense of the specification:
b starts with a followed by the name separator. -/
def segAlignedAncestor (a b : PyStr) : Bool :=
  pyStartsWith b a && a != b && ((b.drop a.length).take 1 == [slashc])

/-- Lying under the handle root in the sense of the specification: the
path extends the root at a segment boundary (or equals it). -/
def underRoot (root p : PyStr) : Bool :=
  pyStartsWith p (root ++ [slashc]) || p == root

/-- Well-formed path segment: nonempty, separator-free, and not one of
the special components . and .. . -/
def validSeg (s : PyStr) : Prop :=
  s ≠ [] ∧ slashc ∉ s ∧ s ≠ [dotc] ∧ s ≠ [dotc, dotc]

instance : DecidablePred validSeg := fun s => by
  unfold validSeg; infer_instance

theorem commonPref_append_right {α : Type} [DecidableEq α] (a u : List α) :
    commonPref (a ++ u) a = a := by
  induction a with
  | nil => cases u <;> rfl
  | cons x xs ih => simp [commonPref, ih]

theorem commonPref_append_left {α : Type} [DecidableEq α] (a u : List α) :
    commonPref a (a ++ u) = a := by
  induction a with
  | nil => cases u <;> rfl
  | cons x xs ih => simp [commonPref, ih]

theorem pickAcc_some (l : List PyStr) : ∀ a : PyStr, ∃ r, pickAcc (some a) l = some r ∧
    (r = a ∨ r ∈ l) ∧ a.length ≤ r.length ∧ ∀ b ∈ l, b.length ≤ r.length := by
  induction l with
  | nil => intro a; exact ⟨a, rfl, Or.inl rfl, le_refl _, by simp⟩
  | cons h t ih =>
    intro a
    by_cases hc : a.length ≤ h.length
    · obtain ⟨r, hr, hmem, hlen, hall⟩ := ih h
      refine ⟨r, ?_, ?_, ?_, ?_⟩
      · simpa [pickAcc, hc] using hr
      · rcases hmem with rfl | hm
        · exact Or.inr (List.mem_cons_self _ _)
        · exact Or.inr (List.mem_cons_of_mem _ hm)
      · exact le_trans hc hlen
      · intro b hb
        rcases List.mem_cons.mp hb with rfl | hb'
        · exact hlen
        · exact hall b hb'
    · obtain ⟨r, hr, hmem, hlen, hall⟩ := ih a
      refine ⟨r, ?_, ?_, ?_, ?_⟩
      · simpa [pickAcc, hc] using hr
      · rcases hmem with rfl | hm
        · exact Or.inl rfl
        · exact Or.inr (List.mem_cons_of_mem _ hm)
      · exact hlen
      · intro b hb
        rcases List.mem_cons.mp hb with rfl | hb'
        · exact le_trans (le_of_not_le hc) hlen
        · exact hall b hb'

theorem pickLongest_nil_iff (l : List PyStr) : pickLongest l = none ↔ l = [] := by
  cases l with
  | nil => simp [pickLongest, pickAcc]
  | cons h t =>
    simp only [pickLongest]
    rw [show pickAcc none (h :: t) = pickAcc (some h) t from rfl]
    obtain ⟨r, hr, _, _, _⟩ := pickAcc_some t h
    simp [hr]

theorem pickLongest_spec (l : List PyStr) (a : PyStr) (h : pickLongest l = some a) :
    a ∈ l ∧ ∀ b ∈ l, b.length ≤ a.length := by
  cases l with
  | nil => simp [pickLongest, pickAcc] at h
  | cons x t =>
    rw [pickLongest, show pickAcc none (x :: t) = pickAcc (some x) t from rfl] at h
    obtain ⟨r, hr, hmem, _, hall⟩ := pickAcc_some t x
    rw [hr] at h
    cases h
    constructor
    · rcases hmem with rfl | hm
      · exact List.mem_cons_self _ _
      · exact List.mem_cons_of_mem _ hm
    · intro b hb
      rcases List.mem_cons.mp hb with rfl | hb'
      · rcases hmem with rfl | _
        · exact le_refl _
        · exact le_trans (le_refl _) (by
            obtain ⟨r', hr', _, hlen', _⟩ := pickAcc_some t b
            rw [hr'] at hr
            cases hr
            exact hlen')
      · exact hall b hb'

/-- C1: get_file_key on a single path inside the handle.  When the
backend key lookup fails (lookup = none): an absent file propagates the
I/O error; an existing file listed among the git-indexed paths raises
FileInGitError; an existing file not in the index raises
FileNotInAnnexError.  When the lookup succeeds, the first token of the
backend's stdout (the key it reported) is returned. -/
theorem get_file_key_cases (root cwd p q : PyStr) (indexed : List PyStr)
    (hck : check_path root cwd p = Except.ok q) :
    (get_file_key root cwd none false indexed p = Except.error AnnexErr.ioError) ∧
    (q ∈ indexed → get_file_key root cwd none true indexed p = Except.error AnnexErr.fileInGit) ∧
    (q ∉ indexed → get_file_key root cwd none true indexed p = Except.error AnnexErr.fileNotInAnnex) ∧
    (∀ out k rest fsOk, pySplitWs out = k :: rest →
      get_file_key root cwd (some out) fsOk indexed p = Except.ok k) := by
  refine ⟨?_, ?_, ?_, ?_⟩
  · simp only [get_file_key, hck]
    simp
  · intro hq
    simp only [get_file_key, hck]
    simp [hq]
  · intro hq
    simp only [get_file_key, hck]
    simp [hq]
  · intro out k rest fsOk hout
    simp only [get_file_key, hck]
    simp [hout]

theorem get_file_key_cases_inst :
    get_file_key (pys "/r") (pys "/x") none true [pys "f"] (pys "f") =
      Except.error AnnexErr.fileInGit ∧
    get_file_key (pys "/r") (pys "/x") none false [] (pys "f") =
      Except.error AnnexErr.ioError :=
  ⟨(get_file_key_cases (pys "/r") (pys "/x") (pys "f") (pys "f") [pys "f"]
      (by decide)).2.1 (by decide),
   (get_file_key_cases (pys "/r") (pys "/x") (pys "f") (pys "f") []
      (by decide)).1⟩

/-- C9: file_has_content returns false and never raises when the backend
find-command itself errors (the run outcome none models the caught
RuntimeError, which sets status to 1 so the guard yields False). -/
theorem has_content_backend_error (root cwd p q : PyStr)
    (hck : check_path root cwd p = Except.ok q) :
    file_has_content root cwd none p = Except.ok false := by
  simp only [file_has_content, hck]

theorem has_content_backend_error_inst :
    file_has_content (pys "/r") (pys "/x") none (pys "f") = Except.ok false :=
  has_content_backend_error (pys "/r") (pys "/x") (pys "f") (pys "f") (by decide)

/-- C4: the orchestrator compares the submodule index before and after
the add; any multiplicity of newly appearing top-level entries other
than exactly one is a fatal assertion violation, and a unique new entry
is what it proceeds with. -/
theorem added_multiplicity_guard (pre post : List PyStr) :
    ((post.filter (fun sm => !(pre.contains sm))).length ≠ 1 →
      check_added pre post = Except.error InstallErr.assertionViolation) ∧
    (∀ x, post.filter (fun sm => !(pre.contains sm)) = [x] →
      check_added pre post = Except.ok x) := by
  constructor
  · intro h
    simp only [check_added]
    rw [if_neg h]
  · intro x hx
    simp only [check_added, hx]
    simp

theorem added_multiplicity_guard_inst :
    check_added [pys "a"] [pys "a", pys "b", pys "c"] =
      Except.error InstallErr.assertionViolation ∧
    check_added [pys "a"] [pys "a"] = Except.error InstallErr.assertionViolation :=
  ⟨(added_multiplicity_guard [pys "a"] [pys "a", pys "b", pys "c"]).1 (by decide),
   (added_multiplicity_guard [pys "a"] [pys "a"]).1 (by decide)⟩

theorem existsSuffix_len : existsSuffix.length = 29 := rfl

/-- C5: a backend CommandError from the submodule-add whose stripped
stderr is a single-quoted name followed by the literal text
" already exists in the index" is re-classified as already-installed,
embedding exactly the quoted name (both quotes); any stderr not of that
shape propagates unchanged. -/
theorem classify_add_error_spec (stderr : PyStr) :
    (∀ nmq : PyStr, pyStripWs stderr = qc :: nmq ++ existsSuffix →
      classify_submodule_add_error stderr =
        AddErrClass.alreadyInstalled (qc :: nmq ++ [qc])) ∧
    ((pyEndsWith (pyStripWs stderr) existsSuffix = false ∨
        pyStartsWith (pyStripWs stderr) [qc] = false) →
      classify_submodule_add_error stderr = AddErrClass.propagate stderr) := by
  constructor
  · intro nmq hm
    have hm' : pyStripWs stderr = (qc :: nmq) ++ existsSuffix := by
      rw [hm]
    have hends : pyEndsWith (pyStripWs stderr) existsSuffix = true := by
      simp only [pyEndsWith, hm', List.length_append, existsSuffix_len]
      have harith : (qc :: nmq).length + 29 - 29 = (qc :: nmq).length := by omega
      rw [harith, List.drop_left]
      simp
    have hstarts : pyStartsWith (pyStripWs stderr) [qc] = true := by
      simp only [pyStartsWith, hm, List.length_cons, List.length_nil]
      simp [List.take_succ_cons]
    have htake : (pyStripWs stderr).take ((pyStripWs stderr).length - 28) =
        qc :: nmq ++ [qc] := by
      simp only [hm', List.length_append, existsSuffix_len]
      have hl : (qc :: nmq).length + 29 - 28 = (qc :: nmq).length + 1 := by omega
      rw [hl, List.take_append 1]
      rfl
    simp only [classify_submodule_add_error, hends, hstarts, Bool.and_self]
    simp only [if_true]
    rw [htake]
  · intro h
    have hcond : (pyEndsWith (pyStripWs stderr) existsSuffix &&
        pyStartsWith (pyStripWs stderr) [qc]) = false := by
      rcases h with h | h <;> simp [h]
    simp [classify_submodule_add_error, hcond]

theorem classify_add_error_spec_inst :
    classify_submodule_add_error (pys "  ") = AddErrClass.propagate (pys "  ") ∧
    classify_submodule_add_error (qc :: pys "foo" ++ existsSuffix) =
      AddErrClass.alreadyInstalled (qc :: pys "foo" ++ [qc]) :=
  ⟨(classify_add_error_spec (pys "  ")).2 (Or.inl (by decide)),
   (classify_add_error_spec (qc :: pys "foo" ++ existsSuffix)).1 (pys "foo") (by decide)⟩

/-- C8 (code bug): _check_path accepts an absolute path that is NOT
under the handle root whenever the root is a character-wise common
prefix of it - os.path.commonprefix compares characters, not path
segments - so /repofoo/data passes the check against root /repo and is
returned as ../repofoo/data instead of raising "path outside
repository". -/
theorem check_path_sibling_accepted :
    underRoot (pys "/repo") (pys "/repofoo/data") = false ∧
    check_path (pys "/repo") (pys "/elsewhere") (pys "/repofoo/data") =
      Except.ok (pys "../repofoo/data") := by
  constructor
  · decide
  · decide

/-- C6 (code bug): in the reinstall branch the remainder strips only the
anchor's name, keeping the leading separator (src_as_name[len(anchor):]),
so joining anchor path and remainder collapses to the absolute-looking
remainder /b rather than reconstructing /r/a/b; the new-addition branch
strips the separator (name[len(anchor) + 1:]) and does reconstruct the
target path. -/
theorem reinstall_remainder_keeps_separator :
    (resolve_reinstall (pys "/r") [pys "a"] (pys "a/b")).remainder = pys "/b" ∧
    opj (resolve_reinstall (pys "/r") [pys "a"] (pys "a/b")).anchorPath
      (resolve_reinstall (pys "/r") [pys "a"] (pys "a/b")).remainder = pys "/b" ∧
    pys "/b" ≠ pys "b" ∧
    pys "/b" ≠ pys "/r/a/b" ∧
    (resolve_add (pys "/r") [pys "a"] (pys "a/b")).remainder = pys "b" ∧
    opj (resolve_add (pys "/r") [pys "a"] (pys "a/b")).anchorPath
      (resolve_add (pys "/r") [pys "a"] (pys "a/b")).remainder = pys "/r/a/b" := by
  refine ⟨by decide, by decide, by decide, by decide, by decide, by decide⟩

/-- C7 (code bug): reinstalling the known, uninitialized handle sub under
root /r, with an annex detected at the sub-repository path /r/sub, runs
git annex init with cwd = /r (the super handle), not /r/sub (the
sub-repository the annex was detected in). -/
theorem reinstall_annex_init_cwd_is_parent :
    reinstall_actions (pys "/r") [pys "sub"] (pys "sub") false
        (fun p => p == pys "/r/sub") =
      [Action.run [pys "git", pys "submodule", pys "update", pys "--init", pys "sub"]
        (pys "/r"),
       Action.run [pys "git", pys "annex", pys "init"] (pys "/r")] ∧
    pys "/r" ≠ pys "/r/sub" := by
  constructor
  · rfl
  · decide

/-- C2 (counterexample): the index entry foo is selected as anchor for
the names foobar and foobar/x in both branches although it is only a
character-wise prefix, not a segment-aligned ancestor. -/
theorem resolve_not_segment_aligned_cex :
    (resolve_reinstall (pys "/r") [pys "foo"] (pys "foobar")).anchorName = some (pys "foo") ∧
    (resolve_add (pys "/r") [pys "foo"] (pys "foobar/x")).anchorName = some (pys "foo") ∧
    segAlignedAncestor (pys "foo") (pys "foobar") = false ∧
    segAlignedAncestor (pys "foo") (pys "foobar/x") = false := by
  refine ⟨by decide, by decide, by decide, by decide⟩

/-- C2 (amended): in both branches the anchor actually selected is the
longest index entry that is a plain character-wise prefix of the name
(strict in the reinstall branch, possibly equal to the name in the
new-addition branch); with no such entry the root handle anchors and the
remainder is the whole name; the remainder drops exactly the anchor's
length (reinstall) or the anchor's length plus one (new addition). -/
theorem resolve_longest_plain_ancestor (rootPath : PyStr) (handles : List PyStr) (nm : PyStr) :
    ((resolve_reinstall rootPath handles nm).anchorName = none →
      handles.filter (fun h => pyStartsWith nm h && h != nm) = [] ∧
      (resolve_reinstall rootPath handles nm).remainder = nm ∧
      (resolve_reinstall rootPath handles nm).anchorPath = rootPath) ∧
    (∀ a, (resolve_reinstall rootPath handles nm).anchorName = some a →
      a ∈ handles.filter (fun h => pyStartsWith nm h && h != nm) ∧
      (∀ b ∈ handles.filter (fun h => pyStartsWith nm h && h != nm), b.length ≤ a.length) ∧
      (resolve_reinstall rootPath handles nm).remainder = nm.drop a.length ∧
      (resolve_reinstall rootPath handles nm).anchorPath = opj rootPath a) ∧
    ((resolve_add rootPath handles nm).anchorName = none →
      handles.filter (fun h => pyStartsWith nm h) = [] ∧
      (resolve_add rootPath handles nm).remainder = nm ∧
      (resolve_add rootPath handles nm).anchorPath = rootPath) ∧
    (∀ a, (resolve_add rootPath handles nm).anchorName = some a →
      a ∈ handles.filter (fun h => pyStartsWith nm h) ∧
      (∀ b ∈ handles.filter (fun h => pyStartsWith nm h), b.length ≤ a.length) ∧
      (resolve_add rootPath handles nm).remainder = nm.drop (a.length + 1) ∧
      (resolve_add rootPath handles nm).anchorPath = opj rootPath a) := by
  refine ⟨?_, ?_, ?_, ?_⟩
  · intro h
    cases hpl : pickLongest (handles.filter (fun h => pyStartsWith nm h && h != nm)) with
    | none =>
      refine ⟨(pickLongest_nil_iff _).mp hpl, ?_, ?_⟩ <;> simp [resolve_reinstall, hpl]
    | some a => simp [resolve_reinstall, hpl] at h
  · intro a ha
    cases hpl : pickLongest (handles.filter (fun h => pyStartsWith nm h && h != nm)) with
    | none => simp [resolve_reinstall, hpl] at ha
    | some a' =>
      simp [resolve_reinstall, hpl] at ha
      subst ha
      obtain ⟨hmem, hall⟩ := pickLongest_spec _ _ hpl
      refine ⟨hmem, hall, ?_, ?_⟩ <;> simp [resolve_reinstall, hpl]
  · intro h
    cases hpl : pickLongest (handles.filter (fun h => pyStartsWith nm h)) with
    | none =>
      refine ⟨(pickLongest_nil_iff _).mp hpl, ?_, ?_⟩ <;> simp [resolve_add, hpl]
    | some a => simp [resolve_add, hpl] at h
  · intro a ha
    cases hpl : pickLongest (handles.filter (fun h => pyStartsWith nm h)) with
    | none => simp [resolve_add, hpl] at ha
    | some a' =>
      simp [resolve_add, hpl] at ha
      subst ha
      obtain ⟨hmem, hall⟩ := pickLongest_spec _ _ hpl
      refine ⟨hmem, hall, ?_, ?_⟩ <;> simp [resolve_add, hpl]

theorem resolve_longest_plain_ancestor_inst :
    (resolve_reinstall (pys "/r") [pys "a", pys "a/b"] (pys "a/b/c")).remainder =
      (pys "a/b/c").drop (pys "a/b").length :=
  ((resolve_longest_plain_ancestor (pys "/r") [pys "a", pys "a/b"] (pys "a/b/c")).2.1
    (pys "a/b") (by decide)).2.2.1

theorem commit_loop_map_hname (r m w : PyStr) (hs : List PyStr) :
    (commit_loop r m w hs).map CommitEvent.hname = hs := by
  induction hs generalizing w with
  | nil => rfl
  | cons h t ih => simp [commit_loop, ih]

theorem commit_loop_msg (r m w : PyStr) (hs : List PyStr) :
    ∀ e ∈ commit_loop r m w hs, e.msg = m := by
  induction hs generalizing w with
  | nil => simp [commit_loop]
  | cons h t ih =>
    intro e he
    rw [commit_loop] at he
    rcases List.mem_cons.mp he with rfl | he'
    · rfl
    · exact ih h e he'

theorem commit_loop_staged (r m : PyStr) (e : CommitEvent) (hs : List PyStr)
    (hdesc : List.Chain' (fun a b => properPreP b a) (e.hname :: hs)) :
    List.Chain' (fun a b : CommitEvent =>
      b.staged = some (pyStripChar slashc (a.hname.drop b.hname.length)))
      (e :: commit_loop r m e.hname hs) := by
  induction hs generalizing e with
  | nil => simp [commit_loop]
  | cons h t ih =>
    rw [commit_loop, List.chain'_cons]
    obtain ⟨hpre, hrest⟩ := List.chain'_cons.mp hdesc
    have hsplit : e.hname = h ++ e.hname.drop h.length := by
      conv_lhs => rw [← List.take_append_drop h.length e.hname]
      rw [hpre.1]
    have hcp : commonPref e.hname h = h := by
      conv_lhs => rw [hsplit]
      exact commonPref_append_right h _
    constructor
    · simp [hcp]
    · exact ih ⟨h, opj r h,
        some (pyStripChar slashc (e.hname.drop (commonPref e.hname h).length)), m⟩ hrest

/-- C3: commit propagation after an install below one or more super
handles goes deepest-first: the target handle (deepest registered super
handle of the installed name) is committed first with no staging of its
own, then each shallower super handle, the root handle last; every
commit carries the same message, and each ancestor's commit stages the
previously committed handle's hierarchical name with the prefix it
shares with the ancestor stripped (plus surrounding slashes) - the
relative sub-path that changed in it. -/
theorem commit_chain_deepest_first (rootPath msgStr : PyStr) (supers : List PyStr)
    (hne : supers ≠ []) (hch : List.Chain' properPreP supers)
    (hnn : ∀ s ∈ supers, s ≠ []) :
    (∀ e ∈ commit_chain rootPath supers msgStr, e.msg = msgStr) ∧
    (commit_chain rootPath supers msgStr).map CommitEvent.hname = supers.reverse ++ [[]] ∧
    List.Chain' (fun a b => properPreP b a)
      ((commit_chain rootPath supers msgStr).map CommitEvent.hname) ∧
    (∀ e ∈ (commit_chain rootPath supers msgStr).head?, e.staged = none) ∧
    List.Chain' (fun a b : CommitEvent =>
      b.staged = some (pyStripChar slashc (a.hname.drop b.hname.length)))
      (commit_chain rootPath supers msgStr) ∧
    ((commit_chain rootPath supers msgStr).map CommitEvent.hname).getLast? = some [] := by
  obtain ⟨l, tgt, hsup⟩ := (List.eq_nil_or_concat supers).resolve_left hne
  rw [List.concat_eq_append] at hsup
  subst hsup
  have hlast : (l ++ [tgt]).getLast? = some tgt := List.getLast?_concat _
  have hrev : (l ++ [tgt]).reverse = tgt :: l.reverse := by simp
  have hcc : commit_chain rootPath (l ++ [tgt]) msgStr =
      (⟨tgt, opj rootPath tgt, none, msgStr⟩ : CommitEvent) ::
        commit_loop rootPath msgStr tgt (l.reverse ++ [[]]) := by
    simp only [commit_chain, hlast, hrev, List.tail_cons]
  have hmap : (commit_chain rootPath (l ++ [tgt]) msgStr).map CommitEvent.hname =
      tgt :: (l.reverse ++ [[]]) := by
    rw [hcc]
    simp [commit_loop_map_hname]
  have hdesc : List.Chain' (fun a b => properPreP b a) (tgt :: (l.reverse ++ [[]])) := by
    have h1 : List.Chain' (fun a b => properPreP b a) (tgt :: l.reverse) := by
      have hch' : List.Chain' (flip fun a b => properPreP b a) (l ++ [tgt]) :=
        List.Chain'.imp (fun a b hab => hab) hch
      have h1' : List.Chain' (fun a b => properPreP b a) ((l ++ [tgt]).reverse) :=
        List.chain'_reverse.mpr hch'
      rwa [hrev] at h1'
    have h2 : List.Chain' (fun a b => properPreP b a) ([[]] : List PyStr) :=
      List.chain'_singleton _
    have hcond : ∀ x ∈ (tgt :: l.reverse).getLast?, ∀ y ∈ ([[] ] : List PyStr).head?,
        properPreP y x := by
      intro x hx y hy
      simp only [List.head?_cons, Option.mem_def, Option.some.injEq] at hy
      subst hy
      rw [← hrev, List.getLast?_reverse] at hx
      have hxmem : x ∈ l ++ [tgt] := List.mem_of_mem_head? hx
      exact ⟨List.take_zero _, Ne.symm (hnn x hxmem)⟩
    have := List.Chain'.append h1 h2 hcond
    simpa using this
  refine ⟨?_, ?_, ?_, ?_, ?_, ?_⟩
  · rw [hcc]
    intro e he
    rcases List.mem_cons.mp he with rfl | he'
    · rfl
    · exact commit_loop_msg rootPath msgStr tgt _ e he'
  · rw [hmap, hrev]
    simp
  · rw [hmap]
    exact hdesc
  · rw [hcc]
    simp
  · rw [hcc]
    exact commit_loop_staged rootPath msgStr ⟨tgt, opj rootPath tgt, none, msgStr⟩ _ hdesc
  · rw [hmap]
    rw [show tgt :: (l.reverse ++ [[]]) = (tgt :: l.reverse) ++ [[]] from rfl]
    exact List.getLast?_concat _

theorem commit_chain_deepest_first_inst :
    (commit_chain (pys "/r") [pys "a", pys "a/b"] (pys "m")).map CommitEvent.hname =
      [pys "a", pys "a/b"].reverse ++ [[]] :=
  (commit_chain_deepest_first (pys "/r") (pys "m") [pys "a", pys "a/b"]
    (by decide)
    (List.chain'_cons.mpr ⟨by decide, List.chain'_singleton _⟩)
    (by decide)).2.1

theorem splitOnCharAux_no_sep (c : Char) (a : PyStr) (h : c ∉ a) :
    splitOnCharAux c a = (a, []) := by
  induction a with
  | nil => rfl
  | cons x xs ih =>
    have hx : ¬ x = c := fun he => h (he ▸ List.mem_cons_self x xs)
    have ht : c ∉ xs := fun hm => h (List.mem_cons_of_mem _ hm)
    simp only [splitOnCharAux, ih ht, if_neg hx]

theorem splitOnCharAux_sep (c : Char) (a t : PyStr) (h : c ∉ a) :
    splitOnCharAux c (a ++ c :: t) =
      (a, (splitOnCharAux c t).1 :: (splitOnCharAux c t).2) := by
  induction a with
  | nil => simp [splitOnCharAux]
  | cons x xs ih =>
    have hx : ¬ x = c := fun he => h (he ▸ List.mem_cons_self x xs)
    have ht : c ∉ xs := fun hm => h (List.mem_cons_of_mem _ hm)
    simp only [List.cons_append, splitOnCharAux, List.append_eq, ih ht, if_neg hx]

theorem splitOnChar_no_sep (c : Char) (a : PyStr) (h : c ∉ a) :
    splitOnChar c a = [a] := by
  rw [splitOnChar, splitOnCharAux_no_sep c a h]

theorem splitOnChar_sep (c : Char) (a t : PyStr) (h : c ∉ a) :
    splitOnChar c (a ++ c :: t) = a :: splitOnChar c t := by
  rw [splitOnChar, splitOnChar, splitOnCharAux_sep c a t h]

theorem splitOnChar_joinSegs (c : Char) (segs : List PyStr) (hne : segs ≠ [])
    (hfree : ∀ s ∈ segs, c ∉ s) :
    splitOnChar c (joinSegs c segs) = segs := by
  induction segs with
  | nil => cases hne rfl
  | cons s rest ih =>
    cases rest with
    | nil => exact splitOnChar_no_sep c s (hfree s (List.mem_cons_self _ _))
    | cons t r =>
      rw [joinSegs, splitOnChar_sep c s _ (hfree s (List.mem_cons_self _ _)),
        ih (by simp) (fun x hx => hfree x (List.mem_cons_of_mem _ hx))]

theorem joinSegs_cons_cons (c : Char) (s t : PyStr) (r : List PyStr) :
    joinSegs c (s :: t :: r) = s ++ c :: joinSegs c (t :: r) := rfl

theorem joinSegs_append (c : Char) (a b : List PyStr) (ha : a ≠ []) (hb : b ≠ []) :
    joinSegs c (a ++ b) = joinSegs c a ++ c :: joinSegs c b := by
  induction a with
  | nil => cases ha rfl
  | cons s rest ih =>
    cases rest with
    | nil =>
      cases b with
      | nil => cases hb rfl
      | cons t r => rfl
    | cons s2 rest2 =>
      have hstep : joinSegs c ((s :: s2 :: rest2) ++ b) =
          s ++ c :: joinSegs c ((s2 :: rest2) ++ b) := rfl
      rw [hstep, ih (by simp), joinSegs_cons_cons]
      simp

theorem joinSegs_cons_head (c x : Char) (s : PyStr) (rest : List PyStr) :
    ∃ t, joinSegs c ((x :: s) :: rest) = x :: t := by
  cases rest with
  | nil => exact ⟨s, rfl⟩
  | cons a b => exact ⟨s ++ c :: joinSegs c (a :: b), rfl⟩

theorem joinSegs_ne_nil (c : Char) (segs : List PyStr) (hne : segs ≠ [])
    (hv : ∀ s ∈ segs, s ≠ []) : joinSegs c segs ≠ [] := by
  cases segs with
  | nil => cases hne rfl
  | cons s rest =>
    cases hs : s with
    | nil => cases (hv s (List.mem_cons_self _ _)) hs
    | cons x t =>
      subst hs
      obtain ⟨u, hu⟩ := joinSegs_cons_head c x t rest
      rw [hu]
      simp

theorem joinSegs_getLast_ne (c : Char) (segs : List PyStr) (hne : segs ≠ [])
    (hv : ∀ s ∈ segs, s ≠ [] ∧ c ∉ s) :
    (joinSegs c segs).getLast? ≠ some c := by
  induction segs with
  | nil => cases hne rfl
  | cons s rest ih =>
    cases rest with
    | nil =>
      rw [joinSegs]
      intro hl
      exact (hv s (List.mem_cons_self _ _)).2 (List.mem_of_mem_getLast? hl)
    | cons a b =>
      rw [joinSegs]
      have hvj : ∀ x ∈ a :: b, x ≠ [] ∧ c ∉ x :=
        fun x hx => hv x (List.mem_cons_of_mem _ hx)
      have hJne : joinSegs c (a :: b) ≠ [] :=
        joinSegs_ne_nil c (a :: b) (by simp) (fun x hx => (hvj x hx).1)
      have hrec := ih (by simp) hvj
      intro hl
      apply hrec
      rw [← hl]
      obtain ⟨y, u, hyu⟩ : ∃ y u, joinSegs c (a :: b) = y :: u := by
        cases hJ : joinSegs c (a :: b) with
        | nil => cases hJne hJ
        | cons y u => exact ⟨y, u, rfl⟩
      rw [hyu, List.getLast?_append_cons]
      rfl

theorem foldl_normSegStep (isl : Nat) (segs : List PyStr) (acc : List PyStr)
    (hv : ∀ s ∈ segs, validSeg s) :
    segs.foldl (normSegStep isl) acc = acc ++ segs := by
  induction segs generalizing acc with
  | nil => simp
  | cons s rest ih =>
    rw [List.foldl_cons]
    have hs := hv s (List.mem_cons_self _ _)
    have hc1 : ¬ (s = [] ∨ s = [dotc]) := by
      rintro (h1 | h1)
      · exact hs.1 h1
      · exact hs.2.2.1 h1
    have hc2 : s ≠ [dotc, dotc] ∨ (isl = 0 ∧ acc = []) ∨ acc.getLast? = some [dotc, dotc] :=
      Or.inl hs.2.2.2
    have hstep : normSegStep isl acc s = acc ++ [s] := by
      rw [normSegStep, if_neg hc1, if_pos hc2]
    rw [hstep, ih _ (fun x hx => hv x (List.mem_cons_of_mem _ hx))]
    simp

theorem isabs_cons_slash (t : PyStr) : isabs (slashc :: t) = true := by
  simp [isabs]

theorem validSeg_slash_free (segs : List PyStr) (hv : ∀ s ∈ segs, validSeg s) :
    ∀ s ∈ segs, slashc ∉ s := fun s hs => (hv s hs).2.1

/-- Strings of the shape slash ++ join(segs) with well-formed segments
are fixed points of posixpath.normpath. -/
theorem normpath_normalform (segs : List PyStr) (hne : segs ≠ [])
    (hv : ∀ s ∈ segs, validSeg s) :
    normpath (slashc :: joinSegs slashc segs) = slashc :: joinSegs slashc segs := by
  obtain ⟨s, rest, rfl⟩ : ∃ s rest, segs = s :: rest := by
    cases segs with
    | nil => cases hne rfl
    | cons s rest => exact ⟨s, rest, rfl⟩
  obtain ⟨x, s', rfl⟩ : ∃ x s', s = x :: s' := by
    cases hs : s with
    | nil => cases (hv s (List.mem_cons_self _ _)).1 hs
    | cons x t => exact ⟨x, t, rfl⟩
  obtain ⟨t, hj⟩ := joinSegs_cons_head slashc x s' rest
  have hx : x ≠ slashc := by
    intro he
    exact (hv _ (List.mem_cons_self _ _)).2.1 (he ▸ List.mem_cons_self x s')
  have hp_ne : slashc :: joinSegs slashc ((x :: s') :: rest) ≠ [] := by simp
  have htake1 : (slashc :: joinSegs slashc ((x :: s') :: rest)).take 1 = [slashc] := rfl
  have htake2 : ¬ ((slashc :: joinSegs slashc ((x :: s') :: rest)).take 2 = [slashc, slashc] ∧
      (slashc :: joinSegs slashc ((x :: s') :: rest)).take 3 ≠ [slashc, slashc, slashc]) := by
    rw [hj]
    intro hand
    have := hand.1
    simp [List.take_succ_cons] at this
    exact hx this
  have hsplit : splitOnChar slashc (slashc :: joinSegs slashc ((x :: s') :: rest)) =
      [] :: (x :: s') :: rest := by
    have h0 := splitOnChar_sep slashc [] (joinSegs slashc ((x :: s') :: rest)) (by simp)
    rw [List.nil_append] at h0
    rw [h0, splitOnChar_joinSegs slashc _ (by simp) (validSeg_slash_free _ hv)]
  have hfold : (([] :: (x :: s') :: rest).foldl (normSegStep 1) []) = (x :: s') :: rest := by
    rw [List.foldl_cons]
    have h0 : normSegStep 1 [] [] = [] := by
      rw [normSegStep, if_pos (Or.inl rfl)]
    rw [h0, foldl_normSegStep 1 _ [] hv]
    simp
  rw [normpath, if_neg hp_ne, if_pos htake1, if_neg htake2, hsplit]
  simp only [hfold, List.replicate_one, List.singleton_append]
  rw [if_neg hp_ne]

theorem seg_take1_ne_slash (s : PyStr) (hne : s ≠ []) (h : slashc ∉ s) :
    s.take 1 ≠ [slashc] := by
  cases s with
  | nil => cases hne rfl
  | cons y t =>
    intro he
    simp only [List.take_succ_cons, List.take_zero, List.cons.injEq, and_true] at he
    subst he
    exact h (List.mem_cons_self _ _)

theorem seg_getLast_ne_slash (s : PyStr) (h : slashc ∉ s) :
    s.getLast? ≠ some slashc :=
  fun hl => h (List.mem_of_mem_getLast? hl)

theorem opj_seg (a b : PyStr) (ha : a ≠ []) (hal : a.getLast? ≠ some slashc)
    (hb : b.take 1 ≠ [slashc]) :
    opj a b = a ++ slashc :: b := by
  have hor : ¬ (a = [] ∨ a.getLast? = some slashc) := by
    rintro (h | h)
    · exact ha h
    · exact hal h
  rw [opj, if_neg hb, if_neg hor]

theorem foldl_opj_segs (xs : List PyStr) (acc : PyStr) (hacc : acc ≠ [])
    (hal : acc.getLast? ≠ some slashc) (hne : xs ≠ [])
    (hv : ∀ s ∈ xs, validSeg s) :
    xs.foldl opj acc = acc ++ slashc :: joinSegs slashc xs := by
  induction xs generalizing acc with
  | nil => cases hne rfl
  | cons b t ih =>
    have hb := hv b (List.mem_cons_self _ _)
    have hob : opj acc b = acc ++ slashc :: b :=
      opj_seg acc b hacc hal (seg_take1_ne_slash b hb.1 hb.2.1)
    cases t with
    | nil =>
      rw [List.foldl_cons, List.foldl_nil, hob]
      rfl
    | cons b2 t2 =>
      rw [List.foldl_cons, hob]
      have hacc' : acc ++ slashc :: b ≠ [] := by simp
      have hal' : (acc ++ slashc :: b).getLast? ≠ some slashc := by
        rw [List.getLast?_append_cons]
        cases hbs : b with
        | nil => cases hb.1 hbs
        | cons y u =>
          rw [show ((slashc :: y :: u).getLast? = (y :: u).getLast?) from rfl]
          exact seg_getLast_ne_slash (y :: u) (hbs ▸ hb.2.1)
      rw [ih _ hacc' hal' (by simp) (fun s hs => hv s (List.mem_cons_of_mem _ hs))]
      rw [joinSegs_cons_cons]
      simp

theorem filter_nonempty_segs (L : List PyStr) (hv : ∀ s ∈ L, s ≠ []) :
    ([] :: L).filter (fun x => x != []) = L := by
  simp only [List.filter_cons, bne_self_eq_false, Bool.false_eq_true, if_false]
  exact List.filter_eq_self.mpr (fun a ha => by simpa using hv a ha)

theorem relpath_under (cwd : PyStr) (rs ps : List PyStr)
    (hrs : rs ≠ []) (hps : ps ≠ [])
    (hrv : ∀ s ∈ rs, validSeg s) (hpv : ∀ s ∈ ps, validSeg s) :
    relpath cwd (slashc :: joinSegs slashc (rs ++ ps)) (slashc :: joinSegs slashc rs) =
      joinSegs slashc ps := by
  have hall : ∀ s ∈ rs ++ ps, validSeg s := by
    intro s hs
    rcases List.mem_append.mp hs with h | h
    exacts [hrv s h, hpv s h]
  have happne : rs ++ ps ≠ [] := by
    cases rs with
    | nil => cases hrs rfl
    | cons a b => simp
  have habs_p : abspath cwd (slashc :: joinSegs slashc (rs ++ ps)) =
      slashc :: joinSegs slashc (rs ++ ps) := by
    rw [abspath, if_pos (isabs_cons_slash _)]
    exact normpath_normalform (rs ++ ps) happne hall
  have habs_r : abspath cwd (slashc :: joinSegs slashc rs) =
      slashc :: joinSegs slashc rs := by
    rw [abspath, if_pos (isabs_cons_slash _)]
    exact normpath_normalform rs hrs hrv
  have hsplit_p : (splitOnChar slashc (slashc :: joinSegs slashc (rs ++ ps))).filter
      (fun x => x != []) = rs ++ ps := by
    have h0 := splitOnChar_sep slashc [] (joinSegs slashc (rs ++ ps)) (by simp)
    rw [List.nil_append] at h0
    rw [h0, splitOnChar_joinSegs slashc _ happne (validSeg_slash_free _ hall)]
    exact filter_nonempty_segs _ (fun s hs => (hall s hs).1)
  have hsplit_r : (splitOnChar slashc (slashc :: joinSegs slashc rs)).filter
      (fun x => x != []) = rs := by
    have h0 := splitOnChar_sep slashc [] (joinSegs slashc rs) (by simp)
    rw [List.nil_append] at h0
    rw [h0, splitOnChar_joinSegs slashc _ hrs (validSeg_slash_free _ hrv)]
    exact filter_nonempty_segs _ (fun s hs => (hrv s hs).1)
  simp only [relpath, habs_p, habs_r, hsplit_p, hsplit_r, commonPref_append_left,
    Nat.sub_self, List.replicate_zero, List.nil_append, List.drop_left]
  cases ps with
  | nil => cases hps rfl
  | cons x xs =>
    show xs.foldl opj x = joinSegs slashc (x :: xs)
    have hx := hpv x (List.mem_cons_self _ _)
    cases xs with
    | nil => rfl
    | cons b t =>
      rw [foldl_opj_segs (b :: t) x hx.1 (seg_getLast_ne_slash x hx.2.1) (by simp)
        (fun s hs => hpv s (List.mem_cons_of_mem _ hs))]
      rw [joinSegs_cons_cons]

/-- C10: an absolute path lying strictly under the handle root (root
segments rs, sub-path segments ps, both well-formed), once normalized
and passed through _check_path, yields the relative sub-path, and
joining the handle root back onto that result reconstructs the
normalized original absolute path. -/
theorem check_path_roundtrip (cwd p : PyStr) (rs ps : List PyStr)
    (hrs : rs ≠ []) (hps : ps ≠ [])
    (hrv : ∀ s ∈ rs, validSeg s) (hpv : ∀ s ∈ ps, validSeg s)
    (hnp : normpath p = slashc :: joinSegs slashc (rs ++ ps)) :
    check_path (slashc :: joinSegs slashc rs) cwd p =
      Except.ok (joinSegs slashc ps) ∧
    opj (slashc :: joinSegs slashc rs) (joinSegs slashc ps) = normpath p := by
  have hje : joinSegs slashc (rs ++ ps) =
      joinSegs slashc rs ++ slashc :: joinSegs slashc ps :=
    joinSegs_append slashc rs ps hrs hps
  have hnp' : normpath p =
      (slashc :: joinSegs slashc rs) ++ slashc :: joinSegs slashc ps := by
    rw [hnp, hje]
    rfl
  have hcpJ : commonPref (slashc :: joinSegs slashc (rs ++ ps))
      (slashc :: joinSegs slashc rs) = slashc :: joinSegs slashc rs := by
    rw [← hnp, hnp']
    exact commonPref_append_right _ _
  constructor
  · simp only [check_path, hnp]
    rw [if_pos (isabs_cons_slash _)]
    have hne_cond : ¬ (commonPref (slashc :: joinSegs slashc (rs ++ ps))
        (slashc :: joinSegs slashc rs) ≠ slashc :: joinSegs slashc rs) :=
      fun hcontra => hcontra hcpJ
    rw [if_neg hne_cond]
    rw [relpath_under cwd rs ps hrs hps hrv hpv]
  · have hroot_ne : (slashc :: joinSegs slashc rs) ≠ [] := by simp
    have hJr_ne : joinSegs slashc rs ≠ [] :=
      joinSegs_ne_nil _ rs hrs (fun s hs => (hrv s hs).1)
    have hroot_last : (slashc :: joinSegs slashc rs).getLast? ≠ some slashc := by
      obtain ⟨y, u, hyu⟩ : ∃ y u, joinSegs slashc rs = y :: u := by
        cases hJ : joinSegs slashc rs with
        | nil => cases hJr_ne hJ
        | cons y u => exact ⟨y, u, rfl⟩
      rw [hyu, show ((slashc :: y :: u).getLast? = (y :: u).getLast?) from rfl, ← hyu]
      exact joinSegs_getLast_ne slashc rs hrs
        (fun s hs => ⟨(hrv s hs).1, (hrv s hs).2.1⟩)
    have hps_head : (joinSegs slashc ps).take 1 ≠ [slashc] := by
      obtain ⟨s, rest, rfl⟩ : ∃ s rest, ps = s :: rest := by
        cases ps with
        | nil => cases hps rfl
        | cons s rest => exact ⟨s, rest, rfl⟩
      have hs0 := hpv s (List.mem_cons_self _ _)
      obtain ⟨x, s', rfl⟩ : ∃ x s', s = x :: s' := by
        cases hsx : s with
        | nil => cases hs0.1 hsx
        | cons x s' => exact ⟨x, s', rfl⟩
      obtain ⟨t, ht⟩ := joinSegs_cons_head slashc x s' rest
      rw [ht]
      intro he
      simp only [List.take_succ_cons, List.take_zero, List.cons.injEq, and_true] at he
      subst he
      exact hs0.2.1 (List.mem_cons_self _ _)
    rw [opj_seg _ _ hroot_ne hroot_last hps_head]
    exact hnp'.symm

theorem check_path_roundtrip_inst :
    check_path (slashc :: joinSegs slashc [pys "r"]) (pys "/c") (pys "/r/./x") =
      Except.ok (joinSegs slashc [pys "x"]) ∧
    opj (slashc :: joinSegs slashc [pys "r"]) (joinSegs slashc [pys "x"]) =
      normpath (pys "/r/./x") :=
  check_path_roundtrip (pys "/c") (pys "/r/./x") [pys "r"] [pys "x"]
    (by decide) (by decide) (by decide) (by decide) (by decide)

end Datalad
